import Mathlib

/-!
Verification of the fixed-point decimal engine `metrima.core.fixed` (class `Fx`).

The data model is a pair `(value, scale)` representing `value / 10^scale`.
Python's unbounded `int` is modelled by `Int`; `scale` is always non-negative
in the source (it starts as a string length or `0` and is only ever
decremented while positive), so it is modelled by `Nat`.

Python's floor division `//` and floor modulo `%` on integers are modelled by
`Int.fdiv` and `Int.fmod`, which have the same rounding convention
(toward negative infinity, remainder sign follows the divisor).

Operations that raise Python exceptions return `Except PyErr _`.
-/

/-- The Python exceptions raised by the engine:
`ZeroDivisionError` (division/modulo by zero), `ValueError` (malformed
literal passed to `int()`, the spec's `ParseError`), `NotImplementedError`
(raised by `Fx._to_fx` on a non-coercible operand), and
`UnexpectedTypeError` (raised by `Fx._align`, the spec's `TypeMismatchError`). -/
inductive PyErr where
  | zeroDivisionError
  | valueError
  | notImplementedError
  | unexpectedTypeError
  deriving DecidableEq, Repr

/-- The `Fx` data model: fields `value` (mantissa) and `scale`. -/
structure Fx where
  value : Int
  scale : Nat
  deriving DecidableEq, Repr

namespace Fx

/-- The `while` loop of `Fx._normalize`: while `scale > 0 and value % 10 == 0`,
do `value //= 10; scale -= 1`.  Structural recursion on the scale, which the
loop decrements at every iteration. -/
def stripZeros : Int → Nat → Int × Nat
  | v, 0 => (v, 0)
  | v, e + 1 => if v % 10 = 0 then stripZeros (v.fdiv 10) e else (v, e + 1)

/-- `Fx._normalize`: canonical zero, then strip trailing fractional zeros. -/
def normalize (x : Fx) : Fx :=
  if x.value = 0 then ⟨0, 0⟩
  else
    let p := stripZeros x.value x.scale
    ⟨p.1, p.2⟩

/-- The normalization invariant of the spec: a zero mantissa forces scale 0,
and otherwise `scale == 0 OR mantissa % 10 != 0`. -/
def Normalized (x : Fx) : Prop :=
  (x.value = 0 → x.scale = 0) ∧ (x.scale = 0 ∨ x.value % 10 ≠ 0)

instance (x : Fx) : Decidable x.Normalized := by
  unfold Normalized; infer_instance

/-- `Fx._align`: rescale two values to the common scale `max(scaleA, scaleB)`
by multiplying the lower-scale mantissa by `10^diff`. -/
def align (a b : Fx) : Int × Int × Nat :=
  if a.scale = b.scale then (a.value, b.value, a.scale)
  else if a.scale > b.scale then
    (a.value, b.value * (10 : Int) ^ (a.scale - b.scale), a.scale)
  else
    (a.value * (10 : Int) ^ (b.scale - a.scale), b.value, b.scale)

/-- `Fx.__add__` after coercion: align, add mantissas, normalize. -/
def add (a b : Fx) : Fx :=
  let t := align a b
  normalize ⟨t.1 + t.2.1, t.2.2⟩

/-- `Fx.__sub__` after coercion: align, subtract mantissas, normalize. -/
def sub (a b : Fx) : Fx :=
  let t := align a b
  normalize ⟨t.1 - t.2.1, t.2.2⟩

/-- `Fx.__mul__` after coercion: multiply mantissas, add scales, normalize. -/
def mul (a b : Fx) : Fx :=
  normalize ⟨a.value * b.value, a.scale + b.scale⟩

/-- `Fx.__neg__`. -/
def neg (a : Fx) : Fx := normalize ⟨-a.value, a.scale⟩

/-- `Fx.__pos__`. -/
def pos (a : Fx) : Fx := normalize ⟨a.value, a.scale⟩

/-- `Fx.__abs__`. -/
def abs (a : Fx) : Fx := normalize ⟨|a.value|, a.scale⟩

/-- `Fx.__truediv__` after coercion: raise `ZeroDivisionError` on zero divisor
mantissa; otherwise align, extend the numerator by
`10^(max 16 (a.scale + b.scale + 4))` (the working precision computed from the
operands' original scales), floor-divide, normalize. -/
def truediv (a b : Fx) : Except PyErr Fx :=
  if b.value = 0 then .error .zeroDivisionError
  else
    let t := align a b
    let p := max 16 (a.scale + b.scale + 4)
    .ok (normalize ⟨(t.1 * (10 : Int) ^ p).fdiv t.2.1, p⟩)

/-- `Fx.__floordiv__` after coercion: raise `ZeroDivisionError` on zero
divisor mantissa; otherwise align, floor-divide the aligned mantissas,
result scale 0, normalize. -/
def floordiv (a b : Fx) : Except PyErr Fx :=
  if b.value = 0 then .error .zeroDivisionError
  else
    let t := align a b
    .ok (normalize ⟨t.1.fdiv t.2.1, 0⟩)

/-- `Fx.__mod__` after coercion: align, take the host floor modulo of the
aligned mantissas at the common scale, normalize.  The source has no explicit
zero test: Python's `%` itself raises `ZeroDivisionError` when the aligned
divisor mantissa is zero, which happens exactly when `b.value = 0`. -/
def mod (a b : Fx) : Except PyErr Fx :=
  if b.value = 0 then .error .zeroDivisionError
  else
    let t := align a b
    .ok (normalize ⟨t.1.fmod t.2.1, t.2.2⟩)

/-- The accumulation loop of `Fx.__pow__`'s integer branch:
`result = Fx(1)`, then `exp` times `result = result * base`. -/
def powLoop (base : Fx) : Nat → Fx
  | 0 => ⟨1, 0⟩
  | n + 1 => (powLoop base n).mul base

/-- `Fx.__pow__` restricted to its exact branch: when the exponent has
`scale == 0` and a non-negative mantissa, return `Fx(1)` for exponent `0`
and otherwise the repeated-multiplication loop.  The other branch of the
source converts through the host floating-point `**` and is returned as
`none` here (binary floating point is outside this embedding). -/
def pow (base expo : Fx) : Option Fx :=
  if expo.scale = 0 ∧ 0 ≤ expo.value then
    some (if expo.value = 0 then ⟨1, 0⟩ else powLoop base expo.value.toNat)
  else
    none

end Fx

/-! ## The constructor's string path (`Fx.__init__` on text)

`int(str)` of CPython is modelled as an optional ASCII sign followed by a
non-empty run of ASCII digits.  (CPython additionally strips surrounding
whitespace and accepts single underscores between digits and non-ASCII
digits; no literal in this development uses those, and the development's
statements about the parser are scoped to the sign/digit/point alphabet.) -/

/-- Numeric value of a run of ASCII digit characters, most significant
first (how `int()` reads a digit string). -/
def digitsToNat (l : List Char) : Nat :=
  l.foldl (fun n c => 10 * n + (c.toNat - 48)) 0

/-- Models CPython `int(str)` on the sign/digit alphabet: an optional
leading `+`/`-` followed by at least one digit; anything else raises
`ValueError`. -/
def intParse (l : List Char) : Except PyErr Int :=
  match l with
  | [] => .error .valueError
  | c :: rest =>
      if c = '-' then
        if rest ≠ [] ∧ rest.all Char.isDigit then .ok (-(digitsToNat rest : Int))
        else .error .valueError
      else if c = '+' then
        if rest ≠ [] ∧ rest.all Char.isDigit then .ok ((digitsToNat rest : Int))
        else .error .valueError
      else
        if (c :: rest).all Char.isDigit then .ok ((digitsToNat (c :: rest) : Int))
        else .error .valueError

/-- Python's `s.split('.')`: cut the character list at every `'.'`.
Always returns at least one (possibly empty) part. -/
def splitDot : List Char → List (List Char)
  | [] => [[]]
  | c :: rest =>
      if c = '.' then [] :: splitDot rest
      else
        match splitDot rest with
        | [] => [[c]]
        | p :: ps => (c :: p) :: ps

/-- The field computation of `Fx.__init__` on a string, before the final
`_normalize` call: if the text contains a `'.'`, the tuple unpacking
`whole, frac = s.split('.')` demands exactly two parts (otherwise
`ValueError`), the scale is the fractional length and the mantissa is
`int(whole + frac)`; without a `'.'` the whole text goes through `int`. -/
def parseRaw (s : String) : Except PyErr (Int × Nat) :=
  let cs := s.toList
  if '.' ∈ cs then
    match splitDot cs with
    | [whole, frac] =>
        (intParse (whole ++ frac)).map fun v => (v, frac.length)
    | _ => .error .valueError
  else
    (intParse cs).map fun v => (v, 0)

/-- `Fx.__init__` on a string: compute the raw fields, then `_normalize`. -/
def parseFx (s : String) : Except PyErr Fx :=
  (parseRaw s).map fun p => Fx.normalize ⟨p.1, p.2⟩

/-- `Fx(value)` on a host integer `n`: `str(n)` contains no `'.'`, and
`int(str(n)) = n`, so the mantissa is `n` at scale `0`, then normalize. -/
def Fx.ofInt (n : Int) : Fx := Fx.normalize ⟨n, 0⟩

/-! ## Operand coercion and comparisons -/

/-- The kinds of right-hand operand reaching `Fx._to_fx`: an `Fx` instance,
a host `int`, a host `str`, or any other object (`_to_fx`'s fall-through).
Host floats are not modelled (binary floating point); they take the same
`fx(other)` branch as `int`. -/
inductive Operand where
  | fxv (a : Fx)
  | intv (n : Int)
  | strv (s : String)
  | nonNumeric
  deriving Repr

/-- `Fx._to_fx`: an `Fx` passes through, `int`/`str` go through `fx(...)`
(the constructor, which can raise `ValueError` on a bad string), and any
other object hits `raise NotImplementedError`.  Note the source *raises*
the `NotImplementedError` exception; it never returns the `NotImplemented`
singleton, so the `if other is NotImplemented` guards in the callers are
dead code. -/
def toFx : Operand → Except PyErr Fx
  | .fxv a => .ok a
  | .intv n => .ok (Fx.ofInt n)
  | .strv s => parseFx s
  | .nonNumeric => .error .notImplementedError

/-- Aligned-mantissa equality of two `Fx` values (the comparison at the
heart of `Fx.__eq__`). -/
def Fx.eqFx (a b : Fx) : Bool :=
  let t := Fx.align a b
  t.1 = t.2.1

/-- `Fx.__eq__`: coerce (which may raise), then compare aligned mantissas.
The guard `if other is NotImplemented: return False` of the source is dead
(`_to_fx` raises instead of returning `NotImplemented`), so a raise from
`_to_fx` propagates out of `__eq__`. -/
def Fx.eqOp (a : Fx) (x : Operand) : Except PyErr Bool :=
  (toFx x).map fun b => Fx.eqFx a b

/-- `Fx.__ne__`: same shape as `__eq__` with the negated mantissa test
(and a dead `return True` guard). -/
def Fx.neOp (a : Fx) (x : Operand) : Except PyErr Bool :=
  (toFx x).map fun b => !(Fx.eqFx a b)

/-- `Fx.__hash__` hashes the host tuple `(self.value, self.scale)`; the
host tuple hash is a function of the component values, so the pair itself
is taken as the hash here: equal pairs mean equal Python hashes. -/
def Fx.fxHash (x : Fx) : Int × Nat := (x.value, x.scale)

/-! ## Basic lemmas about normalization -/

theorem stripZeros_spec : ∀ (e : Nat) (v : Int), v ≠ 0 →
    (Fx.stripZeros v e).1 ≠ 0 ∧
    ((Fx.stripZeros v e).2 = 0 ∨ (Fx.stripZeros v e).1 % 10 ≠ 0) ∧
    (Fx.stripZeros v e).1.sign = v.sign := by
  intro e
  induction e with
  | zero => intro v hv; exact ⟨hv, Or.inl rfl, rfl⟩
  | succ e ih =>
      intro v hv
      by_cases h : v % 10 = 0
      · obtain ⟨k, hk⟩ := Int.dvd_of_emod_eq_zero h
        have hk0 : k ≠ 0 := by rintro rfl; simp at hk; exact hv hk
        have hfd : v.fdiv 10 = k := by
          rw [hk, Int.mul_fdiv_cancel_left _ (by norm_num)]
        have hs : Fx.stripZeros v (e + 1) = Fx.stripZeros k e := by
          simp [Fx.stripZeros, h, hfd]
        rw [hs]
        obtain ⟨h1, h2, h3⟩ := ih k hk0
        refine ⟨h1, h2, ?_⟩
        have h10 : Int.sign 10 = 1 := rfl
        rw [h3, hk, Int.sign_mul, h10, one_mul]
      · have hs : Fx.stripZeros v (e + 1) = (v, e + 1) := by
          simp [Fx.stripZeros, h]
        rw [hs]
        exact ⟨hv, Or.inr h, rfl⟩

theorem normalize_eq_strip {x : Fx} (hv : x.value ≠ 0) :
    Fx.normalize x = ⟨(Fx.stripZeros x.value x.scale).1, (Fx.stripZeros x.value x.scale).2⟩ := by
  simp [Fx.normalize, hv]

theorem normalize_normalized (x : Fx) : (Fx.normalize x).Normalized := by
  by_cases hv : x.value = 0
  · simp [Fx.normalize, hv, Fx.Normalized]
  · obtain ⟨h1, h2, _⟩ := stripZeros_spec x.scale x.value hv
    rw [normalize_eq_strip hv]
    unfold Fx.Normalized
    exact ⟨fun h => (h1 h).elim, h2⟩

theorem normalize_sign (x : Fx) : (Fx.normalize x).value.sign = x.value.sign := by
  by_cases hv : x.value = 0
  · simp [Fx.normalize, hv]
  · obtain ⟨_, _, h3⟩ := stripZeros_spec x.scale x.value hv
    rw [normalize_eq_strip hv]
    exact h3

theorem normalize_eq_self {x : Fx} (h : x.Normalized) : Fx.normalize x = x := by
  obtain ⟨v, e⟩ := x
  obtain ⟨h0, h1⟩ := h
  by_cases hv : v = 0
  · subst hv
    have he : e = 0 := h0 rfl
    subst he
    simp [Fx.normalize]
  · rw [normalize_eq_strip hv]
    rcases h1 with h1 | h1
    · simp only at h1
      subst h1
      simp [Fx.stripZeros]
    · cases e with
      | zero => simp [Fx.stripZeros]
      | succ e => simp only at h1; simp [Fx.stripZeros, h1]

/-- The floor modulo is nonpositive when the divisor is negative
(case analysis on the constructors of `Int.fmod`). -/
theorem fmod_nonpos (a : Int) {b : Int} (hb : b < 0) : a.fmod b ≤ 0 := by
  cases b with
  | ofNat n => exact absurd hb (not_lt.mpr (Int.ofNat_nonneg n))
  | negSucc n =>
      cases a with
      | ofNat m =>
          cases m with
          | zero => simp [Int.fmod]
          | succ k =>
              show Int.subNatNat (k % Nat.succ n) n ≤ 0
              rw [Int.subNatNat_eq_coe]
              have : k % Nat.succ n < Nat.succ n := Nat.mod_lt _ (Nat.succ_pos n)
              omega
      | negSucc m =>
          show -Int.ofNat (Nat.succ m % Nat.succ n) ≤ 0
          exact neg_nonpos.mpr (Int.ofNat_nonneg _)

/-- The floor modulo is zero or carries the divisor's sign. -/
theorem fmod_sign (a : Int) {b : Int} (hb : b ≠ 0) :
    a.fmod b = 0 ∨ (a.fmod b).sign = b.sign := by
  rcases lt_trichotomy b 0 with h | h | h
  · have := fmod_nonpos a h
    rcases eq_or_lt_of_le this with h2 | h2
    · exact Or.inl h2
    · right
      rw [Int.sign_eq_neg_one_iff_neg.mpr h2, Eq.comm, Int.sign_eq_neg_one_iff_neg]
      exact h
  · exact absurd h hb
  · have := Int.fmod_nonneg' a h
    rcases eq_or_lt_of_le this with h2 | h2
    · exact Or.inl h2.symm
    · right
      rw [Int.sign_eq_one_iff_pos.mpr h2, Eq.comm, Int.sign_eq_one_iff_pos]
      exact h

/-- The aligned mantissas have the signs (and zeroness) of the originals. -/
theorem align_sign (a b : Fx) :
    (Fx.align a b).1.sign = a.value.sign ∧ (Fx.align a b).2.1.sign = b.value.sign := by
  unfold Fx.align
  have hpow : ∀ d : Nat, ((10 : Int) ^ d).sign = 1 := fun d =>
    Int.sign_eq_one_iff_pos.mpr (by positivity)
  by_cases h1 : a.scale = b.scale
  · simp [h1]
  · by_cases h2 : a.scale > b.scale
    · simp [h1, h2, Int.sign_mul, hpow]
    · simp [h1, h2, Int.sign_mul, hpow]

/-- The three branches of `Fx._align`, with the branch conditions. -/
theorem align_eq_cases (a b : Fx) :
    (a.scale = b.scale ∧ Fx.align a b = (a.value, b.value, a.scale)) ∨
    (a.scale > b.scale ∧
      Fx.align a b = (a.value, b.value * (10 : Int) ^ (a.scale - b.scale), a.scale)) ∨
    (a.scale < b.scale ∧
      Fx.align a b = (a.value * (10 : Int) ^ (b.scale - a.scale), b.value, b.scale)) := by
  unfold Fx.align
  by_cases h1 : a.scale = b.scale
  · exact Or.inl ⟨h1, by rw [if_pos h1]⟩
  · by_cases h2 : a.scale > b.scale
    · exact Or.inr (Or.inl ⟨h2, by rw [if_neg h1, if_pos h2]⟩)
    · exact Or.inr (Or.inr ⟨by omega, by rw [if_neg h1, if_neg h2]⟩)

/-! ## Spec-side definitions used by individual claims -/

/-- Modelled from the spec (§4.4 Divide): align the operands, compute the
working scale `max(16, a.scale + b.scale + 4)` from the operands' original
scales, scale the aligned numerator mantissa up by `10^workingScale`,
integer-divide by the aligned denominator mantissa, take `workingScale` as
the result scale, and normalize. -/
def truedivSpec (a b : Fx) : Fx :=
  let aligned := Fx.align a b
  let workingScale := max 16 (a.scale + b.scale + 4)
  let numerator := aligned.1 * (10 : Int) ^ workingScale
  Fx.normalize ⟨numerator.fdiv aligned.2.1, workingScale⟩

/-- Modelled from the spec (§4.4 Power): the n-fold product
`base * base * ... * base` under the exact Multiply operation, `1` for
`n = 0`. -/
def specPower (base : Fx) : Nat → Fx
  | 0 => ⟨1, 0⟩
  | 1 => base
  | n + 2 => (specPower base (n + 1)).mul base

/-- The normalization invariant, lifted to a possibly-raising result. -/
def ResNormalized : Except PyErr Fx → Prop
  | .ok x => x.Normalized
  | .error _ => True

/-- The normalization invariant, lifted to the optional result of `pow`. -/
def OptNormalized : Option Fx → Prop
  | some x => x.Normalized
  | none => True

theorem parseFx_normalized (s : String) : ResNormalized (parseFx s) := by
  unfold parseFx
  cases parseRaw s with
  | error e => exact trivial
  | ok p => exact normalize_normalized _

instance : DecidableEq (Except PyErr Fx)
  | .error e, .error f => decidable_of_iff (e = f) (by simp)
  | .error _, .ok _ => isFalse (by simp)
  | .ok _, .error _ => isFalse (by simp)
  | .ok x, .ok y => decidable_of_iff (x = y) (by simp)

theorem powLoop_eq_specPower (base : Fx) (h3 : base.Normalized) (k : Nat) :
    Fx.powLoop base (k + 1) = specPower base (k + 1) := by
  induction k with
  | zero =>
      show Fx.mul ⟨1, 0⟩ base = base
      unfold Fx.mul
      have he : (⟨(⟨1, 0⟩ : Fx).value * base.value, (⟨1, 0⟩ : Fx).scale + base.scale⟩ : Fx)
          = base := by
        simp
      rw [he]
      exact normalize_eq_self h3
  | succ k ih =>
      show (Fx.powLoop base (k + 1)).mul base = (specPower base (k + 1)).mul base
      rw [ih]

/-! ## The claims -/

/-- Claim C1: division, for a divisor with nonzero mantissa, follows the
spec's algorithm exactly (alignment, working scale
`max(16, a.scale + b.scale + 4)` from the original scales, scaled floor
division, normalization at the working scale), and consequently
`parse("1") / parse("3")` is `0.3333333333333333` with 16 correct
fractional digits: its rational value is within `10^-16` below `1/3`. -/
theorem c1_truediv_algorithm :
    (∀ a b : Fx, b.value ≠ 0 → Fx.truediv a b = .ok (truedivSpec a b)) ∧
    parseFx "1" = .ok ⟨1, 0⟩ ∧ parseFx "3" = .ok ⟨3, 0⟩ ∧
    Fx.truediv ⟨1, 0⟩ ⟨3, 0⟩ = .ok ⟨3333333333333333, 16⟩ ∧
    0 ≤ (1 : ℚ) / 3 - 3333333333333333 / 10 ^ 16 ∧
    (1 : ℚ) / 3 - 3333333333333333 / 10 ^ 16 < 1 / 10 ^ 16 := by
  refine ⟨?_, by decide, by decide, by decide, by norm_num, by norm_num⟩
  intro a b hb
  unfold Fx.truediv truedivSpec
  rw [if_neg hb]

/-- Witness for C1 at `parse("1") / parse("3")`. -/
theorem c1_truediv_algorithm_witness :
    ((⟨3, 0⟩ : Fx).value ≠ 0) ∧
    Fx.truediv ⟨1, 0⟩ ⟨3, 0⟩ = .ok (truedivSpec ⟨1, 0⟩ ⟨3, 0⟩) :=
  ⟨by decide, c1_truediv_algorithm.1 ⟨1, 0⟩ ⟨3, 0⟩ (by decide)⟩

/-- Claim C2 (code bug in the source): equality and inequality against a
non-coercible operand do NOT return the not-comparable signal.  `_to_fx`
executes `raise NotImplementedError` instead of returning the
`NotImplemented` singleton, so the `if other is NotImplemented` guards in
`__eq__`/`__ne__` are dead and the exception propagates: an equality check
against a non-numeric object crashes rather than yielding `False`. -/
theorem c2_eq_nonnumeric_raises (a : Fx) :
    Fx.eqOp a .nonNumeric = .error .notImplementedError ∧
    Fx.neOp a .nonNumeric = .error .notImplementedError :=
  ⟨rfl, rfl⟩

/-- Claim C3: every `Fx` produced by construction or by any engine
operation satisfies the normalization invariant: a zero mantissa forces
scale 0, and otherwise `scale == 0` or `mantissa % 10 != 0`.  The
constructor clause (`parseFx`/`ofInt`) also covers `__round__` and the
float fallback of `__pow__`, which build their results by handing the
host-rendered decimal text of a float to the constructor. -/
theorem c3_results_normalized :
    (∀ s : String, ResNormalized (parseFx s)) ∧
    (∀ n : Int, (Fx.ofInt n).Normalized) ∧
    (∀ a b : Fx, (Fx.add a b).Normalized) ∧
    (∀ a b : Fx, (Fx.sub a b).Normalized) ∧
    (∀ a b : Fx, (Fx.mul a b).Normalized) ∧
    (∀ a b : Fx, ResNormalized (Fx.truediv a b)) ∧
    (∀ a b : Fx, ResNormalized (Fx.floordiv a b)) ∧
    (∀ a b : Fx, ResNormalized (Fx.mod a b)) ∧
    (∀ base expo : Fx, OptNormalized (Fx.pow base expo)) ∧
    (∀ a : Fx, (Fx.neg a).Normalized) ∧
    (∀ a : Fx, (Fx.pos a).Normalized) ∧
    (∀ a : Fx, (Fx.abs a).Normalized) := by
  have hpowLoop : ∀ (base : Fx) (n : Nat), (Fx.powLoop base n).Normalized := by
    intro base n
    cases n with
    | zero => exact (by decide : (⟨(1 : Int), 0⟩ : Fx).Normalized)
    | succ n => exact normalize_normalized _
  refine ⟨parseFx_normalized, fun n => normalize_normalized _,
    fun a b => normalize_normalized _, fun a b => normalize_normalized _,
    fun a b => normalize_normalized _, ?_, ?_, ?_, ?_,
    fun a => normalize_normalized _, fun a => normalize_normalized _,
    fun a => normalize_normalized _⟩
  · intro a b
    unfold Fx.truediv
    by_cases hb : b.value = 0
    · rw [if_pos hb]; exact trivial
    · rw [if_neg hb]; exact normalize_normalized _
  · intro a b
    unfold Fx.floordiv
    by_cases hb : b.value = 0
    · rw [if_pos hb]; exact trivial
    · rw [if_neg hb]; exact normalize_normalized _
  · intro a b
    unfold Fx.mod
    by_cases hb : b.value = 0
    · rw [if_pos hb]; exact trivial
    · rw [if_neg hb]; exact normalize_normalized _
  · intro base expo
    unfold Fx.pow
    by_cases h : expo.scale = 0 ∧ 0 ≤ expo.value
    · rw [if_pos h]
      by_cases hv : expo.value = 0
      · rw [if_pos hv]; exact (by decide : (⟨(1 : Int), 0⟩ : Fx).Normalized)
      · rw [if_neg hv]; exact hpowLoop base _
    · rw [if_neg h]; exact trivial

/-- Claim C4: `truediv` and `floordiv` raise `ZeroDivisionError` exactly
when the divisor's mantissa is zero, succeed otherwise, and in particular
`parse("5") / parse("0")` and `parse("5") // parse("0")` both raise it. -/
theorem c4_div_zero_iff :
    (∀ a b : Fx, (Fx.truediv a b = .error .zeroDivisionError ↔ b.value = 0) ∧
                 ((∃ x, Fx.truediv a b = .ok x) ↔ b.value ≠ 0)) ∧
    (∀ a b : Fx, (Fx.floordiv a b = .error .zeroDivisionError ↔ b.value = 0) ∧
                 ((∃ x, Fx.floordiv a b = .ok x) ↔ b.value ≠ 0)) ∧
    ((parseFx "5" >>= fun a => parseFx "0" >>= fun b => Fx.truediv a b) =
      .error .zeroDivisionError) ∧
    ((parseFx "5" >>= fun a => parseFx "0" >>= fun b => Fx.floordiv a b) =
      .error .zeroDivisionError) := by
  refine ⟨?_, ?_, by decide, by decide⟩
  · intro a b
    unfold Fx.truediv
    by_cases hb : b.value = 0
    · rw [if_pos hb]; simp [hb]
    · rw [if_neg hb]; simp [hb]
  · intro a b
    unfold Fx.floordiv
    by_cases hb : b.value = 0
    · rw [if_pos hb]; simp [hb]
    · rw [if_neg hb]; simp [hb]

/-- Claim C5: on an exponent of scale 0 with non-negative mantissa `n`,
`__pow__` takes the exact branch and equals the spec's n-fold Multiply
product (`1` for `n = 0`), for every normalized base. -/
theorem c5_pow_int_exact (base expo : Fx) (h1 : expo.scale = 0)
    (h2 : 0 ≤ expo.value) (h3 : base.Normalized) :
    Fx.pow base expo = some (specPower base expo.value.toNat) := by
  unfold Fx.pow
  rw [if_pos ⟨h1, h2⟩]
  by_cases hv : expo.value = 0
  · rw [if_pos hv, hv]
    rfl
  · rw [if_neg hv]
    have hn : expo.value.toNat ≠ 0 := by
      have := Int.toNat_of_nonneg h2
      omega
    obtain ⟨k, hk⟩ := Nat.exists_eq_succ_of_ne_zero hn
    rw [hk]
    exact congrArg some (powLoop_eq_specPower base h3 k)

/-- Witness for C5 at `parse("2") ** parse("10") == parse("1024")`:
the exact branch is taken and the result is the 10-fold product, which
evaluates to 1024 at scale 0. -/
theorem c5_pow_int_exact_witness :
    ((⟨10, 0⟩ : Fx).scale = 0) ∧ (0 ≤ (⟨10, 0⟩ : Fx).value) ∧
    ((⟨2, 0⟩ : Fx).Normalized) ∧
    Fx.pow ⟨2, 0⟩ ⟨10, 0⟩ = some (specPower ⟨2, 0⟩ (10 : Int).toNat) ∧
    specPower ⟨2, 0⟩ (10 : Int).toNat = ⟨1024, 0⟩ ∧
    parseFx "2" = .ok ⟨2, 0⟩ ∧ parseFx "10" = .ok ⟨10, 0⟩ ∧
    parseFx "1024" = .ok ⟨1024, 0⟩ :=
  ⟨rfl, by decide, by decide,
   c5_pow_int_exact ⟨2, 0⟩ ⟨10, 0⟩ rfl (by decide) (by decide),
   by decide, by decide, by decide, by decide⟩

/-- Claim C7: for normalized values (which every constructed or computed
value is, by C3), aligned-mantissa equality forces identical
`(mantissa, scale)` pairs, hence equal hashes drawn from that pair. -/
theorem c7_eq_values_hash_equal (a b : Fx) (ha : a.Normalized)
    (hb : b.Normalized) (h : Fx.eqFx a b = true) : Fx.fxHash a = Fx.fxHash b := by
  unfold Fx.eqFx at h
  rcases align_eq_cases a b with ⟨hs, heq⟩ | ⟨hs, heq⟩ | ⟨hs, heq⟩ <;> rw [heq] at h
  · have hv : a.value = b.value := by simpa using h
    unfold Fx.fxHash
    rw [hv, hs]
  · exfalso
    have hv : a.value = b.value * (10 : Int) ^ (a.scale - b.scale) := by simpa using h
    have hd : a.scale - b.scale ≠ 0 := by omega
    obtain ⟨d, hdd⟩ := Nat.exists_eq_succ_of_ne_zero hd
    have hdvd : a.value % 10 = 0 := by
      rw [hv, hdd, Nat.succ_eq_add_one, pow_succ, ← mul_assoc]
      exact Int.mul_emod_left _ 10
    rcases ha.2 with hsc | hmod
    · omega
    · exact hmod hdvd
  · exfalso
    have hv0 : a.value * (10 : Int) ^ (b.scale - a.scale) = b.value := by simpa using h
    have hv : b.value = a.value * (10 : Int) ^ (b.scale - a.scale) := hv0.symm
    have hd : b.scale - a.scale ≠ 0 := by omega
    obtain ⟨d, hdd⟩ := Nat.exists_eq_succ_of_ne_zero hd
    have hdvd : b.value % 10 = 0 := by
      rw [hv, hdd, Nat.succ_eq_add_one, pow_succ, ← mul_assoc]
      exact Int.mul_emod_left _ 10
    rcases hb.2 with hsc | hmod
    · omega
    · exact hmod hdvd

/-- Witness for C7 at `1.2 == 1.2`. -/
theorem c7_eq_values_hash_equal_witness :
    ((⟨12, 1⟩ : Fx).Normalized) ∧ (Fx.eqFx ⟨12, 1⟩ ⟨12, 1⟩ = true) ∧
    Fx.fxHash ⟨12, 1⟩ = Fx.fxHash ⟨12, 1⟩ :=
  ⟨by decide, by decide, c7_eq_values_hash_equal ⟨12, 1⟩ ⟨12, 1⟩ (by decide) (by decide) (by decide)⟩

/-- Claim C10: for a divisor with nonzero mantissa, the modulo result is
zero or carries the divisor's sign (floored remainder at the aligned
scale); in particular a negative value modulo a positive one is
non-negative. -/
theorem c10_mod_sign (a b : Fx) (hb : b.value ≠ 0) :
    ∃ r, Fx.mod a b = .ok r ∧
      (r.value = 0 ∨ r.value.sign = b.value.sign) ∧
      (0 < b.value → 0 ≤ r.value) := by
  refine ⟨_, by unfold Fx.mod; rw [if_neg hb], ?_, ?_⟩
  · have hsg : ((Fx.align a b).2.1).sign = b.value.sign := (align_sign a b).2
    have hbz : (Fx.align a b).2.1 ≠ 0 := by
      intro h0
      apply hb
      rw [← Int.sign_eq_zero_iff_zero]
      rw [← hsg, h0]
      rfl
    have hns := normalize_sign
      (⟨((Fx.align a b).1).fmod ((Fx.align a b).2.1), (Fx.align a b).2.2⟩ : Fx)
    rcases fmod_sign (Fx.align a b).1 hbz with h0 | hsgn
    · left
      rw [← Int.sign_eq_zero_iff_zero, hns]
      simp only [h0]
      rfl
    · right
      rw [hns]
      simp only [hsgn, hsg]
  · intro hbpos
    have hsg : ((Fx.align a b).2.1).sign = b.value.sign := (align_sign a b).2
    have hbz : (Fx.align a b).2.1 ≠ 0 := by
      intro h0
      apply hb
      rw [← Int.sign_eq_zero_iff_zero]
      rw [← hsg, h0]
      rfl
    have hns := normalize_sign
      (⟨((Fx.align a b).1).fmod ((Fx.align a b).2.1), (Fx.align a b).2.2⟩ : Fx)
    rw [← Int.sign_nonneg, hns]
    rcases fmod_sign (Fx.align a b).1 hbz with h0 | hsgn
    · simp [h0]
    · rw [hsgn, hsg, Int.sign_nonneg]
      exact le_of_lt hbpos

/-- Witness for C10 at `(-10.5) % 3.2 = 2.3`. -/
theorem c10_mod_sign_witness :
    ((⟨32, 1⟩ : Fx).value ≠ 0) ∧
    (∃ r, Fx.mod ⟨-105, 1⟩ ⟨32, 1⟩ = .ok r ∧
      (r.value = 0 ∨ r.value.sign = (⟨32, 1⟩ : Fx).value.sign) ∧
      (0 < (⟨32, 1⟩ : Fx).value → 0 ≤ r.value)) :=
  ⟨by decide, c10_mod_sign ⟨-105, 1⟩ ⟨32, 1⟩ (by decide)⟩

/-! ## An object-store model for the frame claim

Python objects are mutable records on a heap.  To state that the operators
mutate nothing but their freshly allocated result, the operator bodies are
re-traced as store transformers: the store is the list of allocated `Fx`
instances (an address is an allocation index), `Fx.__new__` appends a
fresh record, and each `result.value = ...` / `result.scale = ...` /
`result._normalize()` statement of the source is a store update at the
result's address. -/

/-- The object store. -/
abbrev Heap := List Fx

/-- `Fx.__new__(Fx)`: allocate a fresh (still uninitialized) instance,
returning the extended store and the fresh address. -/
def heapNew (h : Heap) : Heap × Nat := (h ++ [⟨0, 0⟩], h.length)

/-- Read the object at an address. -/
def heapGet (h : Heap) (p : Nat) : Fx := h.getD p ⟨0, 0⟩

/-- Field assignment `obj.value = v` at address `p`. -/
def setValue (h : Heap) (p : Nat) (v : Int) : Heap :=
  h.set p ⟨v, (heapGet h p).scale⟩

/-- Field assignment `obj.scale = e` at address `p`. -/
def setScale (h : Heap) (p : Nat) (e : Nat) : Heap :=
  h.set p ⟨(heapGet h p).value, e⟩

/-- `obj._normalize()`: in-place normalization of the object at `p`
(the loop rewrites `obj.value` and `obj.scale`). -/
def normalizeAt (h : Heap) (p : Nat) : Heap :=
  h.set p (Fx.normalize (heapGet h p))

/-- The statement tail shared by every arithmetic method of the source:
`result = Fx.__new__(Fx); result.value = v; result.scale = e;
result._normalize(); return result`. -/
def buildResult (h : Heap) (v : Int) (e : Nat) : Heap × Nat :=
  let n := heapNew h
  let h1 := setValue n.1 n.2 v
  let h2 := setScale h1 n.2 e
  (normalizeAt h2 n.2, n.2)

/-- `Fx.__add__` as a store transformer. -/
def addH (h : Heap) (i j : Nat) : Heap × Nat :=
  let t := Fx.align (heapGet h i) (heapGet h j)
  buildResult h (t.1 + t.2.1) t.2.2

/-- `Fx.__sub__` as a store transformer. -/
def subH (h : Heap) (i j : Nat) : Heap × Nat :=
  let t := Fx.align (heapGet h i) (heapGet h j)
  buildResult h (t.1 - t.2.1) t.2.2

/-- `Fx.__mul__` as a store transformer. -/
def mulH (h : Heap) (i j : Nat) : Heap × Nat :=
  buildResult h ((heapGet h i).value * (heapGet h j).value)
    ((heapGet h i).scale + (heapGet h j).scale)

/-- `Fx.__neg__` as a store transformer. -/
def negH (h : Heap) (i : Nat) : Heap × Nat :=
  buildResult h (-(heapGet h i).value) (heapGet h i).scale

/-- `Fx.__pos__` as a store transformer. -/
def posH (h : Heap) (i : Nat) : Heap × Nat :=
  buildResult h (heapGet h i).value (heapGet h i).scale

/-- `Fx.__abs__` as a store transformer. -/
def absH (h : Heap) (i : Nat) : Heap × Nat :=
  buildResult h |(heapGet h i).value| (heapGet h i).scale

/-- `Fx.__truediv__` as a store transformer. -/
def truedivH (h : Heap) (i j : Nat) : Except PyErr (Heap × Nat) :=
  let a := heapGet h i
  let b := heapGet h j
  if b.value = 0 then .error .zeroDivisionError
  else
    let t := Fx.align a b
    let p := max 16 (a.scale + b.scale + 4)
    .ok (buildResult h ((t.1 * (10 : Int) ^ p).fdiv t.2.1) p)

/-- `Fx.__floordiv__` as a store transformer. -/
def floordivH (h : Heap) (i j : Nat) : Except PyErr (Heap × Nat) :=
  let b := heapGet h j
  if b.value = 0 then .error .zeroDivisionError
  else
    let t := Fx.align (heapGet h i) b
    .ok (buildResult h (t.1.fdiv t.2.1) 0)

/-- `Fx.__mod__` as a store transformer (the zero test is the host `%`
raising, as in `Fx.mod`). -/
def modH (h : Heap) (i j : Nat) : Except PyErr (Heap × Nat) :=
  let b := heapGet h j
  if b.value = 0 then .error .zeroDivisionError
  else
    let t := Fx.align (heapGet h i) b
    .ok (buildResult h (t.1.fmod t.2.1) t.2.2)

/-- The constructor `Fx(n)` on a host integer: allocate, set the fields
`(n, 0)`, normalize in place. -/
def conIntH (h : Heap) (v : Int) : Heap × Nat :=
  buildResult h v 0

/-- The constructor `Fx(s)` on a string: compute the raw fields (which may
raise `ValueError`), then allocate, assign, normalize. -/
def conStrH (h : Heap) (s : String) : Except PyErr (Heap × Nat) :=
  (parseRaw s).map fun p => buildResult h p.1 p.2

/-- `Fx.__round__`: the source builds `Fx(round(float(self), n))`.  The
decimal text the host renders for the rounded float is abstracted as the
parameter `s` (binary floating point is outside the embedding); whatever
it is, the result goes through the constructor. -/
def roundH (h : Heap) (_i : Nat) (s : String) : Except PyErr (Heap × Nat) :=
  conStrH h s

/-- The integer-exponent loop of `Fx.__pow__`: `result = Fx(1)`, then `k`
iterations of `result = result * base`, each allocating a fresh product. -/
def powLoopH (h : Heap) (base : Nat) : Nat → Heap × Nat
  | 0 => conIntH h 1
  | k + 1 =>
      let hp := powLoopH h base k
      mulH hp.1 hp.2 base

/-- `Fx.__pow__` as a store transformer, restricted to the exact integer
branch (`none` stands for the lossy float fallback). -/
def powH (h : Heap) (i j : Nat) : Option (Heap × Nat) :=
  let expo := heapGet h j
  if expo.scale = 0 ∧ 0 ≤ expo.value then
    some (if expo.value = 0 then conIntH h 1 else powLoopH h i expo.value.toNat)
  else
    none

/-- The frame property: the new store preserves every previously allocated
object (so each input operand's fields are untouched), and the returned
address is a fresh, valid instance. -/
def FrameOk (h : Heap) (r : Heap × Nat) : Prop :=
  (∀ k, k < h.length → heapGet r.1 k = heapGet h k) ∧
  h.length ≤ r.2 ∧ r.2 < r.1.length

/-- `FrameOk` lifted over a possibly-raising operation. -/
def FrameOkE (h : Heap) : Except PyErr (Heap × Nat) → Prop
  | .ok r => FrameOk h r
  | .error _ => True

/-- `FrameOk` lifted over `powH`'s optional result. -/
def FrameOkO (h : Heap) : Option (Heap × Nat) → Prop
  | some r => FrameOk h r
  | none => True

theorem set_append_at_length {α : Type} (h : List α) (x y : α) :
    (h ++ [x]).set h.length y = h ++ [y] := by
  induction h with
  | nil => rfl
  | cons a t ih =>
      show a :: (t ++ [x]).set t.length y = a :: (t ++ [y])
      rw [ih]

theorem getD_append_at_length {α : Type} (h : List α) (x d : α) :
    (h ++ [x]).getD h.length d = x := by
  induction h with
  | nil => rfl
  | cons a t ih => exact ih

/-- `buildResult` computes: it appends exactly the normalized record. -/
theorem buildResult_eq (h : Heap) (v : Int) (e : Nat) :
    buildResult h v e = (h ++ [Fx.normalize ⟨v, e⟩], h.length) := by
  have s1 : setValue (h ++ [⟨0, 0⟩]) h.length v = h ++ [⟨v, 0⟩] := by
    unfold setValue heapGet
    rw [getD_append_at_length, set_append_at_length]
  have s2 : setScale (h ++ [⟨v, 0⟩]) h.length e = h ++ [⟨v, e⟩] := by
    unfold setScale heapGet
    rw [getD_append_at_length, set_append_at_length]
  have s3 : normalizeAt (h ++ [⟨v, e⟩]) h.length = h ++ [Fx.normalize ⟨v, e⟩] := by
    unfold normalizeAt heapGet
    rw [getD_append_at_length, set_append_at_length]
  show (normalizeAt (setScale (setValue (h ++ [⟨0, 0⟩]) h.length v) h.length e) h.length,
        h.length) = (h ++ [Fx.normalize ⟨v, e⟩], h.length)
  rw [s1, s2, s3]

theorem frameOk_buildResult (h : Heap) (v : Int) (e : Nat) :
    FrameOk h (buildResult h v e) := by
  rw [buildResult_eq]
  refine ⟨fun k hk => ?_, le_refl _, ?_⟩
  · unfold heapGet
    exact List.getD_append _ _ _ _ hk
  · simp

theorem frameOk_trans {h : Heap} {r1 r2 : Heap × Nat}
    (hf : FrameOk h r1) (hg : FrameOk r1.1 r2) : FrameOk h r2 := by
  obtain ⟨hp1, hl1, hv1⟩ := hf
  obtain ⟨hp2, hl2, hv2⟩ := hg
  refine ⟨fun k hk => ?_, ?_, hv2⟩
  · rw [hp2 k (lt_of_lt_of_le hk (le_of_lt (lt_of_le_of_lt hl1 hv1)))]
    exact hp1 k hk
  · exact le_trans (le_of_lt (lt_of_le_of_lt hl1 hv1)) hl2

theorem frameOk_powLoopH (h : Heap) (base k : Nat) :
    FrameOk h (powLoopH h base k) := by
  induction k with
  | zero => exact frameOk_buildResult h 1 0
  | succ k ih =>
      show FrameOk h (mulH (powLoopH h base k).1 (powLoopH h base k).2 base)
      exact frameOk_trans ih (frameOk_buildResult _ _ _)

/-- Claim C9: every engine operation — add, subtract, multiply, divide,
floor-divide, power, modulo, negate, absolute, unary-plus, round
(and the constructor both operands coerce through) — allocates its result
as a new instance and leaves the fields of every previously allocated
object, in particular of each input operand, unchanged. -/
theorem c9_ops_frame (h : Heap) (i j : Nat) (s : String) (v : Int) :
    FrameOk h (addH h i j) ∧ FrameOk h (subH h i j) ∧ FrameOk h (mulH h i j) ∧
    FrameOkE h (truedivH h i j) ∧ FrameOkE h (floordivH h i j) ∧
    FrameOkO h (powH h i j) ∧ FrameOkE h (modH h i j) ∧
    FrameOk h (negH h i) ∧ FrameOk h (absH h i) ∧ FrameOk h (posH h i) ∧
    FrameOkE h (roundH h i s) ∧ FrameOk h (conIntH h v) ∧
    FrameOkE h (conStrH h s) := by
  have hE : ∀ (b : Bool) (v0 : Int) (e0 : Nat),
      FrameOkE h (if b then .error .zeroDivisionError else .ok (buildResult h v0 e0)) := by
    intro b v0 e0
    cases b
    · exact frameOk_buildResult h v0 e0
    · exact trivial
  refine ⟨frameOk_buildResult _ _ _, frameOk_buildResult _ _ _, frameOk_buildResult _ _ _,
    ?_, ?_, ?_, ?_,
    frameOk_buildResult _ _ _, frameOk_buildResult _ _ _, frameOk_buildResult _ _ _,
    ?_, frameOk_buildResult _ _ _, ?_⟩
  · unfold truedivH
    by_cases hb : (heapGet h j).value = 0
    · rw [if_pos hb]; exact trivial
    · rw [if_neg hb]; exact frameOk_buildResult _ _ _
  · unfold floordivH
    by_cases hb : (heapGet h j).value = 0
    · rw [if_pos hb]; exact trivial
    · rw [if_neg hb]; exact frameOk_buildResult _ _ _
  · unfold powH
    by_cases hc : (heapGet h j).scale = 0 ∧ 0 ≤ (heapGet h j).value
    · rw [if_pos hc]
      by_cases hz : (heapGet h j).value = 0
      · rw [if_pos hz]; exact frameOk_buildResult _ _ _
      · rw [if_neg hz]; exact frameOk_powLoopH h i _
    · rw [if_neg hc]; exact trivial
  · unfold modH
    by_cases hb : (heapGet h j).value = 0
    · rw [if_pos hb]; exact trivial
    · rw [if_neg hb]; exact frameOk_buildResult _ _ _
  · unfold roundH conStrH
    cases parseRaw s with
    | error e => exact trivial
    | ok p => exact frameOk_buildResult _ _ _
  · unfold conStrH
    cases parseRaw s with
    | error e => exact trivial
    | ok p => exact frameOk_buildResult _ _ _

/-! ## Which literals parse (claim C8) -/

/-- Strip the optional leading sign character the integer parser accepts. -/
def stripSign (l : List Char) : List Char :=
  match l with
  | [] => []
  | c :: r => if c = '-' then r else if c = '+' then r else c :: r

/-- The literal's text with every decimal point removed. -/
def dropDots (l : List Char) : List Char := l.filter (fun c => c != '.')

/-- The validity condition of the amended claim C8: at most one decimal
point, and the text with the point removed is an optional leading sign
followed by at least one digit. -/
def ValidNumeric (s : String) : Prop :=
  s.toList.count '.' ≤ 1 ∧
  stripSign (dropDots s.toList) ≠ [] ∧
  (stripSign (dropDots s.toList)).all Char.isDigit = true

theorem splitDot_ne_nil : ∀ l : List Char, splitDot l ≠ []
  | [] => by simp [splitDot]
  | c :: rest => by
      unfold splitDot
      by_cases hc : c = '.'
      · simp [hc]
      · rw [if_neg hc]
        cases hsp : splitDot rest with
        | nil => simp
        | cons p ps => simp

theorem splitDot_length : ∀ l : List Char, (splitDot l).length = l.count '.' + 1
  | [] => by simp [splitDot]
  | c :: rest => by
      unfold splitDot
      by_cases hc : c = '.'
      · subst hc
        have := splitDot_length rest
        simp [List.count_cons, this]
      · rw [if_neg hc]
        cases hsp : splitDot rest with
        | nil => exact absurd hsp (splitDot_ne_nil rest)
        | cons p ps =>
            have hlen := splitDot_length rest
            rw [hsp] at hlen
            have hcnt : (c :: rest).count '.' = rest.count '.' := by
              rw [List.count_cons]
              simp [hc]
            rw [hcnt]
            simpa using hlen

theorem splitDot_flatten : ∀ l : List Char, (splitDot l).flatten = dropDots l
  | [] => by simp [splitDot, dropDots]
  | c :: rest => by
      unfold splitDot
      by_cases hc : c = '.'
      · subst hc
        have := splitDot_flatten rest
        simp [dropDots, List.filter_cons] at *
        exact this
      · rw [if_neg hc]
        cases hsp : splitDot rest with
        | nil => exact absurd hsp (splitDot_ne_nil rest)
        | cons p ps =>
            have hfl := splitDot_flatten rest
            rw [hsp] at hfl
            have hkeep : (c != '.') = true := bne_iff_ne.mpr hc
            show ((c :: p) :: ps).flatten = dropDots (c :: rest)
            have h1 : ((c :: p) :: ps).flatten = c :: (p ++ ps.flatten) := by simp
            have h2 : dropDots (c :: rest) = c :: dropDots rest := by
              simp only [dropDots, List.filter_cons, hkeep, if_true]
            have h3 : p ++ ps.flatten = dropDots rest := by simpa using hfl
            rw [h1, h2, h3]

theorem intParse_ok_iff (l : List Char) :
    (∃ v, intParse l = .ok v) ↔
    (stripSign l ≠ [] ∧ (stripSign l).all Char.isDigit = true) := by
  cases l with
  | nil => simp [intParse, stripSign]
  | cons c r =>
      by_cases hc1 : c = '-'
      · simp only [intParse, stripSign, if_pos hc1]
        by_cases hcond : r ≠ [] ∧ r.all Char.isDigit = true
        · rw [if_pos hcond]
          exact ⟨fun _ => hcond, fun _ => ⟨_, rfl⟩⟩
        · rw [if_neg hcond]
          constructor
          · rintro ⟨v, hv⟩
            exact absurd hv (by simp)
          · intro h
            exact absurd h hcond
      · by_cases hc2 : c = '+'
        · simp only [intParse, stripSign, if_neg hc1, if_pos hc2]
          by_cases hcond : r ≠ [] ∧ r.all Char.isDigit = true
          · rw [if_pos hcond]
            exact ⟨fun _ => hcond, fun _ => ⟨_, rfl⟩⟩
          · rw [if_neg hcond]
            constructor
            · rintro ⟨v, hv⟩
              exact absurd hv (by simp)
            · intro h
              exact absurd h hcond
        · simp only [intParse, stripSign, if_neg hc1, if_neg hc2]
          by_cases hcond : (c :: r).all Char.isDigit = true
          · rw [if_pos hcond]
            exact ⟨fun _ => ⟨by simp, hcond⟩, fun _ => ⟨_, rfl⟩⟩
          · rw [if_neg hcond]
            constructor
            · rintro ⟨v, hv⟩
              exact absurd hv (by simp)
            · rintro ⟨-, hall⟩
              exact absurd hall hcond

theorem intParse_error_or_ok (l : List Char) :
    intParse l = .error .valueError ∨ ∃ v, intParse l = .ok v := by
  cases l with
  | nil => exact Or.inl rfl
  | cons c r =>
      simp only [intParse]
      by_cases hc1 : c = '-'
      · rw [if_pos hc1]
        by_cases hcond : r ≠ [] ∧ r.all Char.isDigit = true
        · rw [if_pos hcond]; exact Or.inr ⟨_, rfl⟩
        · rw [if_neg hcond]; exact Or.inl rfl
      · rw [if_neg hc1]
        by_cases hc2 : c = '+'
        · rw [if_pos hc2]
          by_cases hcond : r ≠ [] ∧ r.all Char.isDigit = true
          · rw [if_pos hcond]; exact Or.inr ⟨_, rfl⟩
          · rw [if_neg hcond]; exact Or.inl rfl
        · rw [if_neg hc2]
          by_cases hcond : (c :: r).all Char.isDigit = true
          · rw [if_pos hcond]; exact Or.inr ⟨_, rfl⟩
          · rw [if_neg hcond]; exact Or.inl rfl

/-- With a dot and exactly two split parts, the constructor is the integer
parse of the concatenated parts, normalized at the fractional length. -/
theorem parseFx_eq_of_splitDot_two {s : String} {w f : List Char}
    (hdot : '.' ∈ s.toList) (hsp : splitDot s.toList = [w, f]) :
    parseFx s = (intParse (w ++ f)).map fun v => Fx.normalize ⟨v, f.length⟩ := by
  unfold parseFx parseRaw
  simp only [hdot, if_true, hsp]
  cases intParse (w ++ f) with
  | error e => rfl
  | ok v => rfl

/-- With a dot but a part count other than two, the tuple unpacking fails. -/
theorem parseFx_eq_valueError_of_splitDot_big {s : String} {parts : List (List Char)}
    (hdot : '.' ∈ s.toList) (hsp : splitDot s.toList = parts)
    (hlen : parts.length ≠ 2) : parseFx s = .error .valueError := by
  unfold parseFx parseRaw
  simp only [hdot, if_true, hsp]
  rcases parts with _ | ⟨w, _ | ⟨f, _ | ⟨g, ps⟩⟩⟩
  · rfl
  · rfl
  · simp at hlen
  · rfl

/-- Without a dot, the constructor is the integer parse of the whole text. -/
theorem parseFx_eq_of_no_dot {s : String} (hdot : '.' ∉ s.toList) :
    parseFx s = (intParse s.toList).map fun v => Fx.normalize ⟨v, 0⟩ := by
  unfold parseFx parseRaw
  simp only [hdot, if_false]
  cases intParse s.toList with
  | error e => rfl
  | ok v => rfl

theorem parseFx_error_or_ok (s : String) :
    parseFx s = .error .valueError ∨ ∃ x, parseFx s = .ok x := by
  by_cases hdot : '.' ∈ s.toList
  · rcases hsp : splitDot s.toList with _ | ⟨w, _ | ⟨f, _ | ⟨g, ps⟩⟩⟩
    · exact Or.inl (parseFx_eq_valueError_of_splitDot_big hdot hsp (by simp))
    · exact Or.inl (parseFx_eq_valueError_of_splitDot_big hdot hsp (by simp))
    · rw [parseFx_eq_of_splitDot_two hdot hsp]
      rcases intParse_error_or_ok (w ++ f) with he | ⟨v, hv⟩
      · rw [he]; exact Or.inl rfl
      · rw [hv]; exact Or.inr ⟨_, rfl⟩
    · exact Or.inl (parseFx_eq_valueError_of_splitDot_big hdot hsp (by simp))
  · rw [parseFx_eq_of_no_dot hdot]
    rcases intParse_error_or_ok s.toList with he | ⟨v, hv⟩
    · rw [he]; exact Or.inl rfl
    · rw [hv]; exact Or.inr ⟨_, rfl⟩

/-- Claim C8 (amended): over literals made of digits, sign characters and
decimal points, construction succeeds exactly when the literal has at most
one decimal point and its text with the point removed is an optional
leading sign followed by at least one digit; every failure is the
`ValueError` (`ParseError`). -/
theorem c8_parse_ok_iff (s : String)
    (_halpha : s.toList.all
      (fun c => c.isDigit || c = '.' || c = '+' || c = '-') = true) :
    ((∃ x, parseFx s = .ok x) ↔ ValidNumeric s) ∧
    (parseFx s = .error .valueError ↔ ¬ ValidNumeric s) := by
  have hmain : (∃ x, parseFx s = .ok x) ↔ ValidNumeric s := by
    unfold ValidNumeric
    by_cases hdot : '.' ∈ s.toList
    · rcases hsp : splitDot s.toList with _ | ⟨w, _ | ⟨f, _ | ⟨g, ps⟩⟩⟩
      · exact absurd hsp (splitDot_ne_nil _)
      · exfalso
        have hlen := splitDot_length s.toList
        rw [hsp] at hlen
        have h1 : ([w] : List (List Char)).length = 1 := rfl
        rw [h1] at hlen
        have hpos := List.count_pos_iff.mpr hdot
        omega
      · rw [parseFx_eq_of_splitDot_two hdot hsp]
        have hlen := splitDot_length s.toList
        rw [hsp] at hlen
        have h2 : ([w, f] : List (List Char)).length = 2 := rfl
        rw [h2] at hlen
        have hcnt : s.toList.count '.' = 1 := by omega
        have hj : w ++ f = dropDots s.toList := by
          have := splitDot_flatten s.toList
          rw [hsp] at this
          simpa using this
        constructor
        · rintro ⟨x, hx⟩
          cases hip : intParse (w ++ f) with
          | error e =>
              rw [hip] at hx
              exact absurd hx (by simp [Except.map])
          | ok v =>
              obtain ⟨hne, hall⟩ := (intParse_ok_iff _).mp ⟨v, hip⟩
              rw [← hj]
              exact ⟨by omega, hne, hall⟩
        · rintro ⟨-, hne, hall⟩
          rw [← hj] at hne hall
          obtain ⟨v, hv⟩ := (intParse_ok_iff _).mpr ⟨hne, hall⟩
          exact ⟨_, by rw [hv]; rfl⟩
      · have hlen := splitDot_length s.toList
        rw [hsp] at hlen
        have h3 : (w :: f :: g :: ps).length = ps.length + 3 := by
          simp only [List.length_cons]
        rw [h3] at hlen
        rw [parseFx_eq_valueError_of_splitDot_big hdot hsp (by simp)]
        constructor
        · rintro ⟨x, hx⟩
          exact absurd hx (by simp)
        · rintro ⟨hcle, -, -⟩
          omega
    · rw [parseFx_eq_of_no_dot hdot]
      have hcnt : s.toList.count '.' = 0 := List.count_eq_zero.mpr hdot
      have hdd : dropDots s.toList = s.toList := by
        apply List.filter_eq_self.mpr
        intro a ha
        exact bne_iff_ne.mpr (fun he => hdot (he ▸ ha))
      constructor
      · rintro ⟨x, hx⟩
        cases hip : intParse s.toList with
        | error e =>
            rw [hip] at hx
            exact absurd hx (by simp [Except.map])
        | ok v =>
            obtain ⟨hne, hall⟩ := (intParse_ok_iff _).mp ⟨v, hip⟩
            rw [hdd]
            exact ⟨by omega, hne, hall⟩
      · rintro ⟨-, hne, hall⟩
        rw [hdd] at hne hall
        obtain ⟨v, hv⟩ := (intParse_ok_iff _).mpr ⟨hne, hall⟩
        exact ⟨_, by rw [hv]; rfl⟩
  refine ⟨hmain, ?_, ?_⟩
  · intro herr hv
    obtain ⟨x, hx⟩ := hmain.mpr hv
    rw [herr] at hx
    exact absurd hx (by simp)
  · intro hnv
    rcases parseFx_error_or_ok s with he | ⟨x, hx⟩
    · exact he
    · exact absurd (hmain.mp ⟨x, hx⟩) hnv

/-- Witness for C8 at `"12.30"` (parses) — the theorem applied at a
concrete literal over the claimed alphabet. -/
theorem c8_parse_ok_iff_witness :
    (("12.30".toList.all
      (fun c => c.isDigit || c = '.' || c = '+' || c = '-')) = true) ∧
    (((∃ x, parseFx "12.30" = .ok x) ↔ ValidNumeric "12.30") ∧
     (parseFx "12.30" = .error .valueError ↔ ¬ ValidNumeric "12.30")) :=
  ⟨by decide, c8_parse_ok_iff "12.30" (by decide)⟩

/-- Counterexample to C8 as stated: the literal `"."` contains no
non-numeric character (every character is a digit or a decimal point) and
not more than one decimal point, so the claim says construction succeeds —
but the constructor fails: `int('' + '')` raises. -/
theorem c8_counterexample :
    parseFx "." = .error .valueError ∧
    ".".toList.count '.' = 1 ∧
    (".".toList.all fun c => c.isDigit || c = '.') = true := by
  refine ⟨by decide, by decide, by decide⟩

/-! ## Rendering (`Fx.__str__`) and the literal round-trip (claim C6) -/

/-- The character of a decimal digit value. -/
def digitCh (d : Nat) : Char := Char.ofNat (48 + d)

/-- Little-endian base-10 digits with an explicit structural fuel
(`fuel ≥ n` suffices), so evaluation is kernel-reducible. -/
def digitsLE : Nat → Nat → List Nat
  | 0, _ => []
  | fuel + 1, n => if n = 0 then [] else n % 10 :: digitsLE fuel (n / 10)

/-- Little-endian base-10 digits of a natural number. -/
def natDigits (n : Nat) : List Nat := digitsLE n n

/-- `str(n)` for a natural number: base-10 digits, most significant first,
`"0"` for zero. -/
def natRepr (n : Nat) : List Char :=
  if n = 0 then ['0'] else (natDigits n).reverse.map digitCh

/-- `str(v)` for a host integer. -/
def intRepr (v : Int) : List Char :=
  if v < 0 then '-' :: natRepr v.natAbs else natRepr v.natAbs

/-- `str.zfill(k)`: left-pad with `'0'` to length at least `k`. -/
def zfill (k : Nat) (l : List Char) : List Char :=
  List.replicate (k - l.length) '0' ++ l

/-- `Fx.__str__`: mantissa text when the scale is zero; otherwise the sign,
the absolute mantissa text zero-filled to `scale + 1` characters, split
`scale` characters from the right, joined with a decimal point
(`val_str[:-scale]` and `val_str[-scale:]`). -/
def strChars (x : Fx) : List Char :=
  if x.scale = 0 then intRepr x.value
  else
    let sign : List Char := if x.value < 0 then ['-'] else []
    let valStr := zfill (x.scale + 1) (natRepr x.value.natAbs)
    let integerPart := valStr.take (valStr.length - x.scale)
    let fractionalPart := valStr.drop (valStr.length - x.scale)
    sign ++ integerPart ++ '.' :: fractionalPart

/-- `str(fx)` as a host string. -/
def strFx (x : Fx) : String := String.mk (strChars x)

/-- The numeric value of a big-endian digit list. -/
def ofDigitsBE (l : List Nat) : Nat := l.foldl (fun n d => 10 * n + d) 0

/-- A decimal literal: optional minus sign, integer digits, optional
decimal point, fractional digits (digit values, most significant first). -/
structure DecLit where
  sign : Bool
  hasDot : Bool
  whole : List Nat
  frac : List Nat

/-- The literal's text. -/
def DecLit.render (L : DecLit) : List Char :=
  (if L.sign then ['-'] else []) ++ L.whole.map digitCh ++
    (if L.hasDot then '.' :: L.frac.map digitCh else [])

/-- A well-formed literal: digit values below ten, at least one digit, and
a decimal point whenever fractional digits are present. -/
def DecLit.Valid (L : DecLit) : Prop :=
  (∀ d ∈ L.whole, d < 10) ∧ (∀ d ∈ L.frac, d < 10) ∧
  L.whole ++ L.frac ≠ [] ∧ (L.frac ≠ [] → L.hasDot = true)

/-- Remove trailing zero digits. -/
def dropTrailingZeros (l : List Nat) : List Nat :=
  (l.reverse.dropWhile (· == 0)).reverse

/-- Modelled from the spec (§8 round-trip, §4.2 Normalizer): the
normalized canonical form of a literal — same value, trailing fractional
zeros removed, leading integer zeros removed, canonical `"0"` for a zero
value, a bare integer part when no fractional digit survives. -/
def canonLit (L : DecLit) : List Char :=
  if ofDigitsBE (L.whole ++ L.frac) = 0 then ['0']
  else
    (if L.sign then ['-'] else []) ++
    (if L.whole.dropWhile (· == 0) = [] then ['0']
     else (L.whole.dropWhile (· == 0)).map digitCh) ++
    (if dropTrailingZeros L.frac = [] then []
     else '.' :: (dropTrailingZeros L.frac).map digitCh)

/-- The signed mantissa `int(sign ++ digits)` produces. -/
def signedVal (s : Bool) (n : Nat) : Int := if s then -(n : Int) else n

theorem digitCh_toNat {d : Nat} (hd : d < 10) : (digitCh d).toNat = 48 + d := by
  interval_cases d <;> decide

theorem digitCh_isDigit {d : Nat} (hd : d < 10) : (digitCh d).isDigit = true := by
  interval_cases d <;> decide

theorem digitCh_ne_dot {d : Nat} (hd : d < 10) : digitCh d ≠ '.' := by
  interval_cases d <;> decide

theorem digitCh_ne_minus {d : Nat} (hd : d < 10) : digitCh d ≠ '-' := by
  interval_cases d <;> decide

theorem digitCh_ne_plus {d : Nat} (hd : d < 10) : digitCh d ≠ '+' := by
  interval_cases d <;> decide

theorem ofDigitsBE_concat (l : List Nat) (d : Nat) :
    ofDigitsBE (l ++ [d]) = 10 * ofDigitsBE l + d := by
  unfold ofDigitsBE
  rw [List.foldl_append]
  rfl

theorem ofDigitsBE_cons_zero (l : List Nat) : ofDigitsBE (0 :: l) = ofDigitsBE l := rfl

theorem ofDigitsBE_dropWhile_zero (l : List Nat) :
    ofDigitsBE (l.dropWhile (· == 0)) = ofDigitsBE l := by
  induction l with
  | nil => rfl
  | cons d l ih =>
      by_cases hd : d = 0
      · subst hd
        have hstep : List.dropWhile (· == 0) ((0 : Nat) :: l) = List.dropWhile (· == 0) l := by
          simp [List.dropWhile_cons]
        rw [hstep, ih, ofDigitsBE_cons_zero]
      · have hbe : ((d == 0) : Bool) = false := by simpa using hd
        have hstep : List.dropWhile (· == 0) (d :: l) = d :: l := by
          simp [List.dropWhile_cons, hbe]
        rw [hstep]

theorem ofDigitsBE_eq_ofDigits (l : List Nat) :
    (ofDigitsBE l : ℕ) = Nat.ofDigits 10 l.reverse := by
  induction l using List.reverseRecOn with
  | nil => rfl
  | append_singleton l d ih =>
      rw [ofDigitsBE_concat, List.reverse_append]
      simp only [List.reverse_cons, List.reverse_nil, List.nil_append, List.singleton_append,
        Nat.ofDigits_cons, ih]
      ring

theorem ofDigitsBE_append_zeros (l : List Nat) (t : Nat) :
    ofDigitsBE (l ++ List.replicate t 0) = ofDigitsBE l * 10 ^ t := by
  induction t with
  | zero => simp
  | succ t ih =>
      have hrep : List.replicate (t + 1) (0 : Nat) = List.replicate t 0 ++ [0] := by
        rw [List.replicate_succ']
      rw [hrep, ← List.append_assoc, ofDigitsBE_concat, ih]
      ring

theorem dropWhile_head_false {α : Type} (p : α → Bool) :
    ∀ (l : List α) {c : α} {r : List α}, l.dropWhile p = c :: r → p c = false
  | [], c, r => by
      intro h
      exact absurd h (by simp)
  | a :: l, c, r => by
      intro h
      by_cases ha : p a = true
      · rw [List.dropWhile_cons, if_pos ha] at h
        exact dropWhile_head_false p l h
      · rw [List.dropWhile_cons, if_neg ha] at h
        injection h with h1 h2
        subst h1
        cases hpa : p a with
        | false => rfl
        | true => exact absurd hpa ha

theorem digits_ofDigitsBE {l : List Nat} (hds : ∀ d ∈ l, d < 10)
    (hnz : ofDigitsBE l ≠ 0) :
    (Nat.digits 10 (ofDigitsBE l)).reverse = l.dropWhile (· == 0) := by
  have hval : ofDigitsBE (l.dropWhile (· == 0)) = ofDigitsBE l :=
    ofDigitsBE_dropWhile_zero l
  have hune : l.dropWhile (· == 0) ≠ [] := by
    intro h0
    apply hnz
    rw [← hval, h0]
    rfl
  obtain ⟨c, r, hcr⟩ : ∃ c r, l.dropWhile (· == 0) = c :: r := by
    cases hc : l.dropWhile (· == 0) with
    | nil => exact absurd hc hune
    | cons c r => exact ⟨c, r, rfl⟩
  have hc0 : c ≠ 0 := by
    have := dropWhile_head_false (· == 0) l hcr
    simpa using this
  have hbounds : ∀ d ∈ (l.dropWhile (· == 0)).reverse, d < 10 := by
    intro d hd
    apply hds
    have hd2 : d ∈ l.dropWhile (· == 0) := by simpa using hd
    exact (List.dropWhile_sublist _).mem hd2
  have hgl : ∀ (h : (l.dropWhile (· == 0)).reverse ≠ []),
      ((l.dropWhile (· == 0)).reverse).getLast h ≠ 0 := by
    have hrev : (l.dropWhile (· == 0)).reverse = r.reverse ++ [c] := by
      rw [hcr]
      simp
    rw [hrev]
    intro h
    rw [List.getLast_concat]
    exact hc0
  have hdig := Nat.digits_ofDigits 10 (by norm_num) _ hbounds hgl
  rw [← ofDigitsBE_eq_ofDigits, hval] at hdig
  rw [hdig]
  simp

theorem digitsLE_eq : ∀ (fuel n : Nat), n ≤ fuel → digitsLE fuel n = Nat.digits 10 n
  | 0, n => by
      intro h
      have hn : n = 0 := by omega
      subst hn
      show ([] : List ℕ) = Nat.digits 10 0
      rw [Nat.digits_zero]
  | fuel + 1, n => by
      intro h
      by_cases hn : n = 0
      · subst hn
        show ([] : List ℕ) = Nat.digits 10 0
        rw [Nat.digits_zero]
      · show (if n = 0 then [] else n % 10 :: digitsLE fuel (n / 10)) = Nat.digits 10 n
        rw [if_neg hn]
        rw [Nat.digits_def' (by norm_num : (1 : ℕ) < 10) (by omega)]
        rw [digitsLE_eq fuel (n / 10) (by omega)]

theorem natDigits_eq (n : Nat) : natDigits n = Nat.digits 10 n :=
  digitsLE_eq n n le_rfl

theorem natRepr_eq {l : List Nat} (hds : ∀ d ∈ l, d < 10) (hnz : ofDigitsBE l ≠ 0) :
    natRepr (ofDigitsBE l) = ((l.dropWhile (· == 0)).map digitCh) := by
  unfold natRepr
  rw [if_neg hnz, natDigits_eq, digits_ofDigitsBE hds hnz]

theorem signedVal_emod_ten (s : Bool) (n : Nat) :
    signedVal s n % 10 = 0 ↔ n % 10 = 0 := by
  cases s
  · show ((n : Int) % 10 = 0 ↔ n % 10 = 0)
    omega
  · show ((-(n : Int)) % 10 = 0 ↔ n % 10 = 0)
    omega

theorem signedVal_fdiv_ten (s : Bool) (n : Nat) :
    (signedVal s (10 * n)).fdiv 10 = signedVal s n := by
  cases s
  · show (((10 * n : Nat) : Int)).fdiv 10 = (n : Int)
    push_cast
    rw [Int.mul_fdiv_cancel_left _ (by norm_num)]
  · show (-((10 * n : Nat) : Int)).fdiv 10 = -(n : Int)
    push_cast
    rw [show -(10 * (n : Int)) = 10 * (-(n : Int)) by ring,
        Int.mul_fdiv_cancel_left _ (by norm_num)]

theorem signedVal_eq_zero (s : Bool) (n : Nat) : signedVal s n = 0 ↔ n = 0 := by
  cases s
  · show ((n : Int) = 0 ↔ n = 0)
    omega
  · show (-(n : Int) = 0 ↔ n = 0)
    omega

theorem dropTrailingZeros_concat_zero (lf : List Nat) :
    dropTrailingZeros (lf ++ [0]) = dropTrailingZeros lf := by
  unfold dropTrailingZeros
  rw [List.reverse_append]
  simp [List.dropWhile_cons]

theorem dropTrailingZeros_concat_nonzero (lf : List Nat) {d : Nat} (hd : d ≠ 0) :
    dropTrailingZeros (lf ++ [d]) = lf ++ [d] := by
  unfold dropTrailingZeros
  rw [List.reverse_append]
  have hbd : ((d == 0) : Bool) = false := by simpa using hd
  simp [List.dropWhile_cons, hbd]

theorem dropTrailingZeros_spec (lf : List Nat) :
    ∃ t, lf = dropTrailingZeros lf ++ List.replicate t 0 := by
  refine ⟨(lf.reverse.takeWhile (· == 0)).length, ?_⟩
  have hrep : lf.reverse.takeWhile (· == 0) =
      List.replicate (lf.reverse.takeWhile (· == 0)).length (0 : Nat) := by
    apply List.eq_replicate_of_mem
    intro b hb
    simpa using List.mem_takeWhile_imp hb
  conv_lhs => rw [← List.reverse_reverse lf,
    ← List.takeWhile_append_dropWhile (· == 0) lf.reverse]
  rw [List.reverse_append]
  unfold dropTrailingZeros
  congr 1
  rw [hrep]
  simp

theorem dropTrailingZeros_subset (lf : List Nat) :
    ∀ x ∈ dropTrailingZeros lf, x ∈ lf := by
  intro x hx
  unfold dropTrailingZeros at hx
  rw [List.mem_reverse] at hx
  have := (List.dropWhile_sublist (l := lf.reverse) (· == 0)).mem hx
  simpa using this

theorem stripZeros_digits (s : Bool) (lw : List Nat) :
    ∀ lf : List Nat, (∀ d ∈ lw ++ lf, d < 10) →
      ofDigitsBE (lw ++ lf) ≠ 0 →
      Fx.stripZeros (signedVal s (ofDigitsBE (lw ++ lf))) lf.length =
        (signedVal s (ofDigitsBE (lw ++ dropTrailingZeros lf)),
         (dropTrailingZeros lf).length) := by
  intro lf
  induction lf using List.reverseRecOn with
  | nil =>
      intro hds hnz
      simp [Fx.stripZeros, dropTrailingZeros]
  | append_singleton lf d ih =>
      intro hds hnz
      have hmod : ofDigitsBE (lw ++ (lf ++ [d])) = 10 * ofDigitsBE (lw ++ lf) + d := by
        rw [← List.append_assoc, ofDigitsBE_concat]
      have hd10 : d < 10 := hds d (by simp)
      have hlen : (lf ++ [d]).length = lf.length + 1 := by simp
      rw [hlen]
      by_cases hd0 : d = 0
      · subst hd0
        have hNform : ofDigitsBE (lw ++ (lf ++ [0])) = 10 * ofDigitsBE (lw ++ lf) := by
          rw [hmod]
          omega
        have hmod10 : signedVal s (ofDigitsBE (lw ++ (lf ++ [0]))) % 10 = 0 := by
          rw [signedVal_emod_ten, hNform]
          omega
        have hstep : Fx.stripZeros (signedVal s (ofDigitsBE (lw ++ (lf ++ [0]))))
            (lf.length + 1) =
            Fx.stripZeros ((signedVal s (ofDigitsBE (lw ++ (lf ++ [0])))).fdiv 10)
              lf.length := by
          simp only [Fx.stripZeros]
          rw [if_pos hmod10]
        have hfdiv : (signedVal s (ofDigitsBE (lw ++ (lf ++ [0])))).fdiv 10 =
            signedVal s (ofDigitsBE (lw ++ lf)) := by
          rw [hNform, signedVal_fdiv_ten]
        have hnz2 : ofDigitsBE (lw ++ lf) ≠ 0 := by
          intro h0
          apply hnz
          rw [hNform, h0]
        have hds2 : ∀ x ∈ lw ++ lf, x < 10 := by
          intro x hx
          apply hds
          rcases List.mem_append.mp hx with h | h
          · exact List.mem_append.mpr (Or.inl h)
          · exact List.mem_append.mpr (Or.inr (List.mem_append.mpr (Or.inl h)))
        rw [hstep, hfdiv, ih hds2 hnz2, dropTrailingZeros_concat_zero]
      · have hmodne : ¬ signedVal s (ofDigitsBE (lw ++ (lf ++ [d]))) % 10 = 0 := by
          rw [signedVal_emod_ten, hmod]
          omega
        have hstep : Fx.stripZeros (signedVal s (ofDigitsBE (lw ++ (lf ++ [d]))))
            (lf.length + 1) =
            (signedVal s (ofDigitsBE (lw ++ (lf ++ [d]))), lf.length + 1) := by
          simp only [Fx.stripZeros]
          rw [if_neg hmodne]
        rw [hstep, dropTrailingZeros_concat_nonzero lf hd0, hlen]

theorem normalize_digits (s : Bool) (lw lf : List Nat)
    (hds : ∀ d ∈ lw ++ lf, d < 10) (hnz : ofDigitsBE (lw ++ lf) ≠ 0) :
    Fx.normalize ⟨signedVal s (ofDigitsBE (lw ++ lf)), lf.length⟩ =
      ⟨signedVal s (ofDigitsBE (lw ++ dropTrailingZeros lf)),
       (dropTrailingZeros lf).length⟩ := by
  have hv : signedVal s (ofDigitsBE (lw ++ lf)) ≠ 0 := by
    intro h0
    exact hnz ((signedVal_eq_zero s _).mp h0)
  rw [normalize_eq_strip hv]
  rw [stripZeros_digits s lw lf hds hnz]

theorem splitDot_no_dot {l : List Char} (h : '.' ∉ l) : splitDot l = [l] := by
  induction l with
  | nil => rfl
  | cons c r ih =>
      have hc : c ≠ '.' := fun hc => h (hc ▸ List.mem_cons_self c r)
      have hr : '.' ∉ r := fun hm => h (List.mem_cons_of_mem _ hm)
      simp only [splitDot]
      rw [if_neg hc, ih hr]

theorem splitDot_append_dot {l : List Char} (r : List Char) (h : '.' ∉ l) :
    splitDot (l ++ '.' :: r) = l :: splitDot r := by
  induction l with
  | nil =>
      show splitDot ('.' :: r) = [] :: splitDot r
      simp [splitDot]
  | cons c t ih =>
      have hc : c ≠ '.' := fun hc => h (hc ▸ List.mem_cons_self c t)
      have ht : '.' ∉ t := fun hm => h (List.mem_cons_of_mem _ hm)
      show splitDot (c :: (t ++ '.' :: r)) = (c :: t) :: splitDot r
      simp only [splitDot]
      rw [if_neg hc, ih ht]

theorem dot_not_mem_map_digitCh {l : List Nat} (hds : ∀ d ∈ l, d < 10) :
    '.' ∉ l.map digitCh := by
  intro hm
  obtain ⟨d, hd, hEq⟩ := List.mem_map.mp hm
  exact digitCh_ne_dot (hds d hd) hEq

theorem dot_not_mem_sign_whole (s : Bool) {l : List Nat} (hds : ∀ d ∈ l, d < 10) :
    '.' ∉ (if s then ['-'] else []) ++ l.map digitCh := by
  intro hm
  rcases List.mem_append.mp hm with h | h
  · cases s
    · simp at h
    · simp at h
  · exact dot_not_mem_map_digitCh hds h

theorem digitsToNat_map : ∀ (l : List Nat), (∀ d ∈ l, d < 10) →
    ∀ acc : Nat,
      List.foldl (fun n c => 10 * n + (c.toNat - 48)) acc (l.map digitCh) =
      List.foldl (fun n d => 10 * n + d) acc l
  | [], _, acc => rfl
  | d :: t, hds, acc => by
      show List.foldl (fun n c => 10 * n + (c.toNat - 48))
          (10 * acc + ((digitCh d).toNat - 48)) (t.map digitCh) =
        List.foldl (fun n d => 10 * n + d) (10 * acc + d) t
      rw [digitCh_toNat (hds d (by simp))]
      have h48 : 48 + d - 48 = d := by omega
      rw [h48]
      exact digitsToNat_map t (fun x hx => hds x (by simp [hx])) (10 * acc + d)

theorem digitsToNat_eq {l : List Nat} (hds : ∀ d ∈ l, d < 10) :
    digitsToNat (l.map digitCh) = ofDigitsBE l :=
  digitsToNat_map l hds 0

theorem intParse_digits {l : List Nat} (hds : ∀ d ∈ l, d < 10) (hne : l ≠ [])
    (s : Bool) :
    intParse ((if s then ['-'] else []) ++ l.map digitCh) =
      .ok (signedVal s (ofDigitsBE l)) := by
  have hmapne : l.map digitCh ≠ [] := by simpa using hne
  have halldig : (l.map digitCh).all Char.isDigit = true := by
    rw [List.all_eq_true]
    intro c hc
    obtain ⟨d, hd, rfl⟩ := List.mem_map.mp hc
    exact digitCh_isDigit (hds d hd)
  cases s
  · show intParse (l.map digitCh) = .ok ((ofDigitsBE l : Int))
    cases l with
    | nil => exact absurd rfl hne
    | cons d0 t =>
        have hd0 : d0 < 10 := hds d0 (by simp)
        show intParse (digitCh d0 :: t.map digitCh) = _
        simp only [intParse]
        rw [if_neg (digitCh_ne_minus hd0), if_neg (digitCh_ne_plus hd0),
            if_pos (show (digitCh d0 :: t.map digitCh).all Char.isDigit = true by
              simpa using halldig)]
        have hv : digitsToNat (digitCh d0 :: t.map digitCh) = ofDigitsBE (d0 :: t) := by
          simpa using digitsToNat_eq hds
        rw [hv]
  · show intParse ('-' :: l.map digitCh) = .ok (-(ofDigitsBE l : Int))
    simp only [intParse, if_true]
    rw [if_pos ⟨hmapne, halldig⟩, digitsToNat_eq hds]

theorem parseFx_render {L : DecLit} (hL : L.Valid) :
    parseFx (String.mk L.render) = .ok
      (Fx.normalize
        ⟨signedVal L.sign (ofDigitsBE (L.whole ++ L.frac)), L.frac.length⟩) := by
  obtain ⟨hw, hf, hne, hdot⟩ := hL
  have hwf : ∀ d ∈ L.whole ++ L.frac, d < 10 := by
    intro d hd
    rcases List.mem_append.mp hd with h | h
    · exact hw d h
    · exact hf d h
  have htl : (String.mk L.render).toList = L.render := rfl
  by_cases hd : L.hasDot = true
  · have hrender : L.render =
        ((if L.sign then ['-'] else []) ++ L.whole.map digitCh) ++
          '.' :: L.frac.map digitCh := by
      unfold DecLit.render
      rw [hd]
      simp [List.append_assoc]
    have hnd : '.' ∉ (if L.sign then ['-'] else []) ++ L.whole.map digitCh :=
      dot_not_mem_sign_whole L.sign hw
    have hmem : '.' ∈ (String.mk L.render).toList := by
      rw [htl, hrender]
      exact List.mem_append.mpr (Or.inr (List.mem_cons_self _ _))
    have hsp : splitDot (String.mk L.render).toList =
        [(if L.sign then ['-'] else []) ++ L.whole.map digitCh,
         L.frac.map digitCh] := by
      rw [htl, hrender, splitDot_append_dot _ hnd,
          splitDot_no_dot (dot_not_mem_map_digitCh hf)]
    rw [parseFx_eq_of_splitDot_two hmem hsp]
    have hcat : ((if L.sign then ['-'] else []) ++ L.whole.map digitCh) ++
        L.frac.map digitCh =
        (if L.sign then ['-'] else []) ++ (L.whole ++ L.frac).map digitCh := by
      rw [List.map_append, List.append_assoc]
    rw [hcat, intParse_digits hwf hne L.sign]
    show Except.ok (Fx.normalize ⟨_, (L.frac.map digitCh).length⟩) = _
    rw [List.length_map]
  · have hfe : L.frac = [] := by
      by_contra hfe
      exact hd (hdot hfe)
    have hrender : L.render = (if L.sign then ['-'] else []) ++ L.whole.map digitCh := by
      unfold DecLit.render
      rw [if_neg hd]
      simp
    have hnm : '.' ∉ (String.mk L.render).toList := by
      rw [htl, hrender]
      exact dot_not_mem_sign_whole L.sign hw
    rw [parseFx_eq_of_no_dot hnm, htl, hrender]
    have hne2 : L.whole ≠ [] := by
      intro h0
      apply hne
      rw [h0, hfe]
      rfl
    rw [intParse_digits hw hne2 L.sign]
    show Except.ok (Fx.normalize ⟨signedVal L.sign (ofDigitsBE L.whole), 0⟩) = _
    rw [hfe]
    simp

theorem strChars_zero_scale (v : Int) : strChars ⟨v, 0⟩ = intRepr v := by
  unfold strChars
  rw [if_pos rfl]

theorem signedVal_natAbs (s : Bool) (n : Nat) : (signedVal s n).natAbs = n := by
  cases s
  · exact Int.natAbs_ofNat n
  · show (-(n : Int)).natAbs = n
    simp

theorem signedVal_neg_iff (s : Bool) (n : Nat) (hn : n ≠ 0) :
    signedVal s n < 0 ↔ s = true := by
  cases s
  · show ((n : Int) < 0 ↔ false = true)
    simp
  · show (-(n : Int) < 0 ↔ true = true)
    simp
    omega

theorem strChars_digits_zero_scale (s : Bool) (lw : List Nat)
    (hw : ∀ d ∈ lw, d < 10) (hnz : ofDigitsBE lw ≠ 0) :
    strChars ⟨signedVal s (ofDigitsBE lw), 0⟩ =
      (if s then ['-'] else []) ++ (lw.dropWhile (· == 0)).map digitCh := by
  rw [strChars_zero_scale]
  unfold intRepr
  rw [signedVal_natAbs, natRepr_eq hw hnz]
  cases s
  · rw [if_neg (by rw [signedVal_neg_iff _ _ hnz]; simp)]
    simp
  · rw [if_pos (by rw [signedVal_neg_iff _ _ hnz])]
    simp

theorem strChars_pos_scale (v : Int) (e : Nat) (he : e ≠ 0) :
    strChars ⟨v, e⟩ =
      (if v < 0 then ['-'] else []) ++
      (zfill (e + 1) (natRepr v.natAbs)).take
          ((zfill (e + 1) (natRepr v.natAbs)).length - e) ++
      '.' :: (zfill (e + 1) (natRepr v.natAbs)).drop
          ((zfill (e + 1) (natRepr v.natAbs)).length - e) := by
  unfold strChars
  rw [if_neg he]

theorem strChars_digits_pos_scale (s : Bool) (lw lf : List Nat)
    (hw : ∀ d ∈ lw, d < 10) (hf : ∀ d ∈ lf, d < 10)
    (hfe : lf ≠ []) (hnz : ofDigitsBE (lw ++ lf) ≠ 0) :
    strChars ⟨signedVal s (ofDigitsBE (lw ++ lf)), lf.length⟩ =
      (if s then ['-'] else []) ++
      (if lw.dropWhile (· == 0) = [] then ['0']
       else (lw.dropWhile (· == 0)).map digitCh) ++
      '.' :: lf.map digitCh := by
  have hwf : ∀ d ∈ lw ++ lf, d < 10 := by
    intro d hd
    rcases List.mem_append.mp hd with h | h
    · exact hw d h
    · exact hf d h
  have hlen0 : lf.length ≠ 0 := by simpa using hfe
  rw [strChars_pos_scale _ _ hlen0, signedVal_natAbs, natRepr_eq hwf hnz]
  have hsign : (if signedVal s (ofDigitsBE (lw ++ lf)) < 0 then (['-'] : List Char)
      else []) = (if s then ['-'] else []) := by
    cases s
    · rw [if_neg (by rw [signedVal_neg_iff _ _ hnz]; simp)]
      rfl
    · rw [if_pos (by rw [signedVal_neg_iff _ _ hnz])]
      rfl
  rw [hsign]
  by_cases hwz : lw.dropWhile (· == 0) = []
  · have hu : (lw ++ lf).dropWhile (· == 0) = lf.dropWhile (· == 0) := by
      rw [List.dropWhile_append, if_pos (by simp [List.isEmpty_iff, hwz])]
    have hlfdec : lf = List.replicate (lf.takeWhile (· == 0)).length 0 ++
        lf.dropWhile (· == 0) := by
      conv_lhs => rw [← List.takeWhile_append_dropWhile (· == 0) lf]
      congr 1
      apply List.eq_replicate_of_mem
      intro b hb
      simpa using List.mem_takeWhile_imp hb
    have hlenlf : lf.length = (lf.takeWhile (· == 0)).length +
        (lf.dropWhile (· == 0)).length := by
      conv_lhs => rw [hlfdec]
      simp
    have harg : (lf.length + 1) - ((lf.dropWhile (· == 0)).map digitCh).length =
        (lf.takeWhile (· == 0)).length + 1 := by
      rw [List.length_map]
      omega
    have hzfill : zfill (lf.length + 1) ((lf.dropWhile (· == 0)).map digitCh) =
        '0' :: (List.replicate (lf.takeWhile (· == 0)).length '0' ++
          (lf.dropWhile (· == 0)).map digitCh) := by
      unfold zfill
      rw [harg, List.replicate_succ, List.cons_append]
    have hvallen : ('0' :: (List.replicate (lf.takeWhile (· == 0)).length '0' ++
        (lf.dropWhile (· == 0)).map digitCh)).length = lf.length + 1 := by
      simp
      omega
    rw [hu, hzfill, hvallen]
    have hone : lf.length + 1 - lf.length = 1 := by omega
    rw [hone]
    have h0ch : digitCh 0 = '0' := by decide
    have hlfmap : lf.map digitCh =
        List.replicate (lf.takeWhile (· == 0)).length '0' ++
          (lf.dropWhile (· == 0)).map digitCh := by
      conv_lhs => rw [hlfdec]
      rw [List.map_append, List.map_replicate, h0ch]
    rw [if_pos hwz]
    have htake : ('0' :: (List.replicate (lf.takeWhile (· == 0)).length '0' ++
        (lf.dropWhile (· == 0)).map digitCh)).take 1 = ['0'] := rfl
    have hdrop : ('0' :: (List.replicate (lf.takeWhile (· == 0)).length '0' ++
        (lf.dropWhile (· == 0)).map digitCh)).drop 1 =
        List.replicate (lf.takeWhile (· == 0)).length '0' ++
          (lf.dropWhile (· == 0)).map digitCh := rfl
    rw [htake, hdrop, ← hlfmap]
  · have hu : (lw ++ lf).dropWhile (· == 0) = lw.dropWhile (· == 0) ++ lf := by
      rw [List.dropWhile_append, if_neg (by simp [List.isEmpty_iff, hwz])]
    rw [hu, List.map_append]
    have hdwlen : 1 ≤ (lw.dropWhile (· == 0)).length := by
      cases hc : lw.dropWhile (· == 0) with
      | nil => exact absurd hc hwz
      | cons a b => simp
    have hlenmap : ((lw.dropWhile (· == 0)).map digitCh ++ lf.map digitCh).length =
        (lw.dropWhile (· == 0)).length + lf.length := by simp
    have hzfill : zfill (lf.length + 1)
        ((lw.dropWhile (· == 0)).map digitCh ++ lf.map digitCh) =
        (lw.dropWhile (· == 0)).map digitCh ++ lf.map digitCh := by
      unfold zfill
      have h0 : (lf.length + 1) -
          ((lw.dropWhile (· == 0)).map digitCh ++ lf.map digitCh).length = 0 := by
        rw [hlenmap]
        omega
      rw [h0]
      rfl
    rw [hzfill, hlenmap]
    have hidx : (lw.dropWhile (· == 0)).length + lf.length - lf.length =
        ((lw.dropWhile (· == 0)).map digitCh).length := by
      rw [List.length_map]
      omega
    rw [hidx, List.take_left, List.drop_left]
    rw [if_neg hwz]

/-- Claim C6: parsing any well-formed decimal literal and converting the
result back to a string yields the literal's normalized canonical form —
the same value with trailing fractional zeros removed (leading integer
zeros canonicalized, zero rendered as "0", no dot when no fractional digit
survives); in particular `str(Fx("3.140")) = "3.14"`. -/
theorem c6_roundtrip_canonical :
    (∀ L : DecLit, L.Valid →
      ∃ x, parseFx (String.mk L.render) = .ok x ∧
        strFx x = String.mk (canonLit L)) ∧
    (∃ x, parseFx "3.140" = .ok x ∧ strFx x = "3.14") := by
  constructor
  · intro L hL
    obtain ⟨hw, hf, hne, hdot⟩ := hL
    have hwf : ∀ d ∈ L.whole ++ L.frac, d < 10 := by
      intro d hd
      rcases List.mem_append.mp hd with h | h
      · exact hw d h
      · exact hf d h
    refine ⟨_, parseFx_render ⟨hw, hf, hne, hdot⟩, ?_⟩
    unfold strFx
    congr 1
    by_cases hNz : ofDigitsBE (L.whole ++ L.frac) = 0
    · have hv0 : signedVal L.sign (ofDigitsBE (L.whole ++ L.frac)) = 0 :=
        (signedVal_eq_zero _ _).mpr hNz
      rw [hv0]
      have hnorm : Fx.normalize ⟨0, L.frac.length⟩ = ⟨0, 0⟩ := by
        simp [Fx.normalize]
      rw [hnorm]
      unfold canonLit
      rw [if_pos hNz]
      rfl
    · rw [normalize_digits L.sign L.whole L.frac hwf hNz]
      obtain ⟨t, ht⟩ := dropTrailingZeros_spec L.frac
      have hN2 : ofDigitsBE (L.whole ++ dropTrailingZeros L.frac) ≠ 0 := by
        intro h0
        apply hNz
        conv_lhs => rw [ht]
        rw [← List.append_assoc, ofDigitsBE_append_zeros, h0, zero_mul]
      have hfb : ∀ d ∈ dropTrailingZeros L.frac, d < 10 :=
        fun d hd => hf d (dropTrailingZeros_subset _ d hd)
      unfold canonLit
      rw [if_neg hNz]
      by_cases hfz : dropTrailingZeros L.frac = []
      · have hN3 : ofDigitsBE L.whole ≠ 0 := by
          intro h0
          apply hN2
          rw [hfz]
          simpa using h0
        have hdw : L.whole.dropWhile (· == 0) ≠ [] := by
          intro h0
          apply hN3
          rw [← ofDigitsBE_dropWhile_zero, h0]
          rfl
        rw [hfz, List.append_nil, List.length_nil,
            strChars_digits_zero_scale L.sign L.whole hw hN3,
            if_neg hdw, if_pos rfl, List.append_nil]
      · rw [strChars_digits_pos_scale L.sign L.whole (dropTrailingZeros L.frac)
              hw hfb hfz hN2,
            if_neg hfz]
  · exact ⟨⟨314, 2⟩, by decide, by decide⟩

instance (L : DecLit) : Decidable L.Valid := by
  unfold DecLit.Valid
  infer_instance

/-- Witness for C6 at the literal "3.140". -/
theorem c6_roundtrip_canonical_witness :
    (DecLit.Valid ⟨false, true, [3], [1, 4, 0]⟩) ∧
    (∃ x, parseFx (String.mk (DecLit.render ⟨false, true, [3], [1, 4, 0]⟩)) = .ok x ∧
      strFx x = String.mk (canonLit ⟨false, true, [3], [1, 4, 0]⟩)) :=
  ⟨by decide, c6_roundtrip_canonical.1 ⟨false, true, [3], [1, 4, 0]⟩ (by decide)⟩
